import Mathlib

/-!
Shallow embedding of the track-construction core of location2gpx
(src/generator/position.rs, src/generator/tracker.rs).

Modelling conventions:
* `OffsetDateTime` values are modelled by their unix timestamp in seconds
  (an `Int`); the repository's sources produce instants (RFC3339 / unix
  timestamps), and `unix_timestamp()` is the only numeric view the core takes.
* `f64` coordinates, speeds and altitudes are modelled by `Rat`.  None of the
  core's control flow branches on these values except the Visvalingam-Whyatt
  area comparison, which is exact arithmetic here.
* The bucket key `((t as f64 / D as f64).floor() * D as f64) as i64` is
  modelled by `Int.fdiv t D * D` for `D ≠ 0`: for `1 ≤ D ≤ 65535` (`D` is a
  `u16`) and `t` in the range of the `time` crate (|t| < 2^40), the `f64`
  division error is far below `1/D`, so the floating floor equals the exact
  floor and every intermediate value is exactly representable.  For `D = 0`
  the Rust pipeline produces `NaN` (or `±inf * 0.0`), and `NaN as i64 = 0`,
  so every position lands in bucket `0`; the model reproduces exactly that.
* Rust's `BTreeMap` is modelled by an association list kept strictly sorted
  by key; `entry(..).or_insert(..)` followed by `push` appends to the entry.
* `Vec::sort_by_key` is a stable sort by the key; any stable sort is
  extensionally the same, so it is modelled by `List.insertionSort`, which
  Mathlib proves stable.
-/

namespace L2G

/-- `RawPosition` from src/generator/position.rs. -/
structure RawPosition where
  lon : Rat
  lat : Rat
  /-- unix timestamp, seconds -/
  time : Int
  speed : Option Rat
  precision : Option Rat
  altitude : Option Rat
deriving Repr, DecidableEq

/-- `DevicePosition` from src/generator/position.rs. -/
structure DevicePosition where
  device_id : String
  pos : RawPosition
  route_name : Option String
  tracker : Option String
deriving Repr, DecidableEq

/-- `gpx::Waypoint`, restricted to the fields the core writes
(src/generator/tracker.rs lines 68-72). -/
structure Waypoint where
  lon : Rat
  lat : Rat
  time : Option Int
  elevation : Option Rat
  speed : Option Rat
deriving Repr, DecidableEq

instance : Inhabited Waypoint := ⟨⟨0, 0, none, none, none⟩⟩

/-- `gpx::TrackSegment`: just a list of points. -/
structure TrackSegment where
  points : List Waypoint
deriving Repr, DecidableEq

/-- `gpx::Track`, restricted to the fields the core writes
(src/generator/tracker.rs lines 50-53). -/
structure Track where
  name : Option String
  description : Option String
  source : Option String
  segments : List TrackSegment
deriving Repr, DecidableEq

instance {ε α : Type} [DecidableEq ε] [DecidableEq α] : DecidableEq (Except ε α) :=
  fun a b =>
    match a, b with
    | Except.ok x, Except.ok y =>
      if h : x = y then isTrue (by rw [h])
      else isFalse (by intro hh; cases hh; exact h rfl)
    | Except.error x, Except.error y =>
      if h : x = y then isTrue (by rw [h])
      else isFalse (by intro hh; cases hh; exact h rfl)
    | Except.ok _, Except.error _ => isFalse (by intro hh; cases hh)
    | Except.error _, Except.ok _ => isFalse (by intro hh; cases hh)

/-- `TrackSegmentOptions` from src/generator/tracker.rs lines 98-114.
`max_duration` is a `u16` in Rust; modelled as `Nat`. -/
structure TrackSegmentOptions where
  max_duration : Nat
  vw_tolerance : Option Rat
deriving Repr, DecidableEq

/-- `TrackSegmentOptions::default`. -/
def TrackSegmentOptions.default : TrackSegmentOptions :=
  { max_duration := 300, vw_tolerance := none }

/-- `Tracker` from src/generator/tracker.rs lines 13-21. -/
structure Tracker where
  device : String
  name : String
  source : Option String
  segment_confs : TrackSegmentOptions
deriving Repr, DecidableEq

/-- `Tracker::new`. -/
def Tracker.new (device name : String) : Tracker :=
  { device := device, name := name, source := none,
    segment_confs := TrackSegmentOptions.default }

/-- The sort key order used by `positions.sort_by_key(|p| p.time)`. -/
def posTimeLe (a b : RawPosition) : Prop := a.time ≤ b.time

instance : DecidableRel posTimeLe := fun a b => by
  unfold posTimeLe; infer_instance

instance : IsTotal RawPosition posTimeLe :=
  ⟨fun a b => Int.le_total a.time b.time⟩

instance : IsTrans RawPosition posTimeLe :=
  ⟨fun _ _ _ h1 h2 => le_trans h1 h2⟩

/-- `positions.sort_by_key(|p| p.time)` — a stable sort by timestamp
(src/generator/tracker.rs line 56). -/
def sortPositions (ps : List RawPosition) : List RawPosition :=
  List.insertionSort posTimeLe ps

/-- The segment bucket key
`((poi.time.unix_timestamp() as f64 / max_time).floor() * max_time) as i64`
(src/generator/tracker.rs line 64).  See the header comment for why this is
`Int.fdiv t D * D` for `D ≠ 0` and `0` for `D = 0`. -/
def bucketKey (D : Nat) (t : Int) : Int :=
  if D = 0 then 0 else t.fdiv (D : Int) * (D : Int)

/-- The waypoint built from a position (src/generator/tracker.rs lines 68-72):
coordinates, time, elevation and speed carried through unchanged. -/
def toWaypoint (p : RawPosition) : Waypoint :=
  { lon := p.lon, lat := p.lat, time := some p.time,
    elevation := p.altitude, speed := p.speed }

/-- `segs.entry(key).or_insert_with(TrackSegment::new)` followed by
`tseg.points.push(wp)`, on the sorted-association-list model of `BTreeMap`. -/
def insertSeg (key : Int) (wp : Waypoint) :
    List (Int × List Waypoint) → List (Int × List Waypoint)
  | [] => [(key, [wp])]
  | (k, ws) :: rest =>
    if key < k then (key, [wp]) :: (k, ws) :: rest
    else if key = k then (k, ws ++ [wp]) :: rest
    else (k, ws) :: insertSeg key wp rest

/-- The segment-building loop of `Tracker::build`
(src/generator/tracker.rs lines 58-75), run over the (sorted) positions. -/
def buildSegs (D : Nat) (ps : List RawPosition) : List (Int × List Waypoint) :=
  ps.foldl (fun m p => insertSeg (bucketKey D p.time) (toWaypoint p) m) []

/-- The waypoint list of the segment owned by bucket `k` (empty if the bucket
was never used). -/
def lookupSeg (k : Int) : List (Int × List Waypoint) → List Waypoint
  | [] => []
  | (k2, ws) :: rest => if k = k2 then ws else lookupSeg k rest

/-- Twice the area of the triangle `a b c` (planar, lon/lat as x/y). -/
def triArea2 (a b c : Waypoint) : Rat :=
  |(b.lon - a.lon) * (c.lat - a.lat) - (c.lon - a.lon) * (b.lat - a.lat)|

/-- Modelled from the spec: the per-interior-point triangle areas feeding the
Visvalingam-Whyatt selection (`geo::SimplifyVwIdx`, an external crate, is not
under src/).  Given the current point list (each point paired with its index
into the original segment), returns for every interior point its position in
the current list together with (twice) the area of the triangle it forms with
its current neighbours.  `i` is the position of the first element of the
suffix being scanned. -/
def areasAux (i : Nat) : List (Nat × Waypoint) → List (Nat × Rat)
  | a :: b :: c :: rest =>
    (i + 1, triArea2 a.2 b.2 c.2) :: areasAux (i + 1) (b :: c :: rest)
  | _ => []

/-- The first entry of smallest area (ties go to the earliest point). -/
def pickMin : List (Nat × Rat) → Option (Nat × Rat)
  | [] => none
  | x :: xs => some (xs.foldl (fun best y => if y.2 < best.2 then y else best) x)

/-- Modelled from the spec: the Visvalingam-Whyatt removal loop — repeatedly
remove the interior point contributing the smallest triangular area while that
area is below the tolerance.  Fuel bounds the number of removals. -/
def vwLoop (tol : Rat) : Nat → List (Nat × Waypoint) → List (Nat × Waypoint)
  | 0, l => l
  | fuel + 1, l =>
    match pickMin (areasAux 0 l) with
    | none => l
    | some (i, a) =>
      if a < tol then vwLoop tol fuel (l.eraseIdx i) else l

/-- Modelled from the spec: `tseg.linestring().simplify_vw_idx(&tol)` — the
indices (ascending) of the waypoints to keep. -/
def simplifyVwIdx (tol : Rat) (points : List Waypoint) : List Nat :=
  (vwLoop tol points.length points.enum).map Prod.fst

/-- The simplification branch of `Tracker::build`
(src/generator/tracker.rs lines 78-87): rebuild the segment keeping only the
waypoints at the returned indices, by indexing into the original points. -/
def simplifySeg (tol : Rat) (points : List Waypoint) : List Waypoint :=
  (simplifyVwIdx tol points).map (fun i => points.getD i default)

/-- `Tracker::build` (src/generator/tracker.rs lines 49-94). -/
def Tracker.build (tr : Tracker) (positions : List RawPosition) :
    Except String Track :=
  let sorted := sortPositions positions
  let segs := buildSegs tr.segment_confs.max_duration sorted
  let segments := segs.map (fun kv =>
    match tr.segment_confs.vw_tolerance with
    | some tol => TrackSegment.mk (simplifySeg tol kv.2)
    | none => TrackSegment.mk kv.2)
  Except.ok
    { name := some tr.name
      description := some ("Tracked by `" ++ tr.device ++ "`")
      source := tr.source
      segments := segments }

/-! ### Date formatting

`pos.pos.time.format(format_description!("[year]-[month]-[day]"))`
(src/generator/tracker.rs lines 132, 140-144).  The calendar conversion is the
standard civil-from-days algorithm; `[year]` zero-pads to 4 digits with an
automatic sign, `[month]`/`[day]` zero-pad to 2. -/

/-- Days-since-epoch to (year, month, day) in the proleptic Gregorian
calendar. -/
def civilFromDays (z0 : Int) : Int × Nat × Nat :=
  let z := z0 + 719468
  let era := z.fdiv 146097
  let doe := (z - era * 146097).toNat
  let yoe := (doe - doe / 1460 + doe / 36524 - doe / 146096) / 365
  let doy := doe - (365 * yoe + yoe / 4 - yoe / 100)
  let mp := (5 * doy + 2) / 153
  let d := doy - (153 * mp + 2) / 5 + 1
  let m := if mp < 10 then mp + 3 else mp - 9
  (era * 400 + yoe + (if m ≤ 2 then 1 else 0), m, d)

/-- Zero-pad a natural number to two digits. -/
def pad2 (n : Nat) : String :=
  if n < 10 then "0" ++ toString n else toString n

/-- Zero-pad a natural number to four digits. -/
def pad4 (n : Nat) : String :=
  if n < 10 then "000" ++ toString n
  else if n < 100 then "00" ++ toString n
  else if n < 1000 then "0" ++ toString n
  else toString n

/-- The `[year]` component: four digits, `-` sign when negative. -/
def yearStr (y : Int) : String :=
  if y < 0 then "-" ++ pad4 y.natAbs else pad4 y.toNat

/-- The `YYYY-MM-DD` route-day string for an instant (unix seconds). -/
def dateStr (t : Int) : String :=
  let c := civilFromDays (t.fdiv 86400)
  yearStr c.1 ++ "-" ++ pad2 c.2.1 ++ "-" ++ pad2 c.2.2

/-- The date formatter with which the orchestrator is instantiated: formatting
`[year]-[month]-[day]` of a valid date into a `String` does not fail. -/
def fmtDate (t : Int) : Except String String := Except.ok (dateStr t)

/-! ### Grouping (src/generator/tracker.rs lines 130-152) -/

/-- Lexicographic order on code-point sequences. -/
def charsLtb : List Char → List Char → Bool
  | [], [] => false
  | [], _ :: _ => true
  | _ :: _, [] => false
  | a :: as, b :: bs =>
    if a.val.toNat < b.val.toNat then true
    else if b.val.toNat < a.val.toNat then false
    else charsLtb as bs

/-- Rust's `String` ordering: lexicographic comparison of UTF-8 bytes, which
orders exactly like the code-point sequence. -/
def strLt (a b : String) : Prop := charsLtb a.data b.data = true

instance : DecidableRel strLt := fun a b =>
  instDecidableEqBool (charsLtb a.data b.data) true

/-- The `Ord` used by `BTreeMap<(String, String), _>`: lexicographic on the
pair. -/
def keyLt (a b : String × String) : Prop :=
  strLt a.1 b.1 ∨ (a.1 = b.1 ∧ strLt a.2 b.2)

instance : DecidableRel keyLt := fun a b => by
  unfold keyLt; infer_instance

/-- `devices.entry(key).or_insert(vec![])` followed by `dev.push(pos)`, on the
sorted-association-list model of `BTreeMap`. -/
def insertGroup (key : String × String) (p : DevicePosition) :
    List ((String × String) × List DevicePosition) →
    List ((String × String) × List DevicePosition)
  | [] => [(key, [p])]
  | (k, ms) :: rest =>
    if keyLt key k then (key, [p]) :: (k, ms) :: rest
    else if key = k then (k, ms ++ [p]) :: rest
    else (k, ms) :: insertGroup key p rest

/-- The body of the grouping loop of `SourceToTracks::build`
(src/generator/tracker.rs lines 136-152): derive the position's route key —
the explicit label, else the formatted day, whose formatting failure aborts
with `?` — and insert the position into its group. -/
def grpStep (fmt : Int → Except String String)
    (m : List ((String × String) × List DevicePosition))
    (pos : DevicePosition) :
    Except String (List ((String × String) × List DevicePosition)) :=
  match pos.route_name with
  | some ro => Except.ok (insertGroup (pos.device_id, ro) pos m)
  | none =>
    match fmt pos.pos.time with
    | Except.ok day => Except.ok (insertGroup (pos.device_id, day) pos m)
    | Except.error e => Except.error e

/-- The grouping loop of `SourceToTracks::build`
(src/generator/tracker.rs lines 136-152). -/
def groupPositions (fmt : Int → Except String String)
    (positions : List DevicePosition) :
    Except String (List ((String × String) × List DevicePosition)) :=
  positions.foldlM (grpStep fmt) []

/-- The members of the group with key `k` (empty if there is no such group). -/
def lookupGrp (k : String × String) :
    List ((String × String) × List DevicePosition) → List DevicePosition
  | [] => []
  | (k2, ms) :: rest => if k = k2 then ms else lookupGrp k rest

/-- Whether `p` derives the grouping key `k` under formatter `fmt`. -/
def keyMatches (fmt : Int → Except String String) (k : String × String)
    (p : DevicePosition) : Bool :=
  p.device_id == k.1 &&
    match p.route_name with
    | some r => r == k.2
    | none =>
      match fmt p.pos.time with
      | Except.ok d => d == k.2
      | Except.error _ => false

/-- The per-group body of the second loop of `SourceToTracks::build`
(src/generator/tracker.rs lines 154-165): a `Tracker` for the group's device
and route name, its source taken from `dev_pos[0].tracker` when that member
carries one, configured with the caller's segment options, built over the
group's raw positions. -/
def trackOfGroup (segment_confs : TrackSegmentOptions)
    (kv : (String × String) × List DevicePosition) : Except String Track :=
  let tracker : Tracker :=
    { device := kv.1.1
      name := kv.1.2
      source := kv.2.head?.bind DevicePosition.tracker
      segment_confs := segment_confs }
  tracker.build (kv.2.map DevicePosition.pos)

/-- `SourceToTracks::build` (src/generator/tracker.rs lines 119-169).
`fetched` is the result of `source.fetch(start, end)`; `fmt` is the
timestamp-to-day formatter (the `time` crate's, modelled by `fmtDate`). -/
def SourceToTracks.build (fetched : Except String (List DevicePosition))
    (fmt : Int → Except String String)
    (segment_confs : TrackSegmentOptions) : Except String (List Track) := do
  let positions ← fetched
  let groups ← groupPositions fmt positions
  groups.mapM (trackOfGroup segment_confs)

/-- The value of the per-group body of the second loop of
`SourceToTracks::build`: `trackOfGroup` always succeeds with this track. -/
def trackValue (segment_confs : TrackSegmentOptions)
    (kv : (String × String) × List DevicePosition) : Track :=
  { name := some kv.1.2
    description := some ("Tracked by `" ++ kv.1.1 ++ "`")
    source := kv.2.head?.bind DevicePosition.tracker
    segments := (buildSegs segment_confs.max_duration
        (sortPositions (kv.2.map DevicePosition.pos))).map
      (fun kv2 =>
        match segment_confs.vw_tolerance with
        | some tol => TrackSegment.mk (simplifySeg tol kv2.2)
        | none => TrackSegment.mk kv2.2) }

/-- For the refinement claim about route keys: the route key as the spec words
it — the explicit label when present and non-empty after trimming whitespace,
otherwise the calendar date of the timestamp.  "Empty after trimming" is
expressed as all characters being whitespace. -/
def routeKeySpec (p : DevicePosition) : String :=
  match p.route_name with
  | some r => if r.data.all Char.isWhitespace then dateStr p.pos.time else r
  | none => dateStr p.pos.time

/-- A formatter that always fails (concrete test input). -/
def fmtBad (_t : Int) : Except String String := Except.error "bad"

/-- A coordinate-trivial raw position at unix time `t` (concrete test input). -/
def posA (t : Int) : RawPosition :=
  { lon := 0, lat := 0, time := t, speed := none, precision := none,
    altitude := none }

/-- A tracker for device `d`, name `n`, no source tag, with the given segment
options (concrete test input). -/
def trkOf (D : Nat) (tol : Option Rat) : Tracker :=
  { device := "d", name := "n", source := none,
    segment_confs := { max_duration := D, vw_tolerance := tol } }

/-! ### Lemmas about the string and key orders -/

theorem charsLtb_trans :
    ∀ {l1 l2 l3 : List Char}, charsLtb l1 l2 = true → charsLtb l2 l3 = true →
      charsLtb l1 l3 = true
  | [], [], _, h1, _ => by simp [charsLtb] at h1
  | [], _ :: _, [], _, h2 => by simp [charsLtb] at h2
  | [], _ :: _, _ :: _, _, _ => by simp [charsLtb]
  | _ :: _, [], _, h1, _ => by simp [charsLtb] at h1
  | _ :: _, _ :: _, [], _, h2 => by simp [charsLtb] at h2
  | a :: as, b :: bs, c :: cs, h1, h2 => by
    simp only [charsLtb] at h1 h2 ⊢
    split at h1
    · split at h2
      · rw [if_pos (by omega)]
      · split at h2
        · simp at h2
        · rw [if_pos (by omega)]
    · split at h1
      · simp at h1
      · split at h2
        · rw [if_pos (by omega)]
        · split at h2
          · simp at h2
          · rw [if_neg (by omega), if_neg (by omega)]
            exact charsLtb_trans h1 h2

theorem charsLtb_flip :
    ∀ {l1 l2 : List Char}, charsLtb l1 l2 = false → l1 ≠ l2 →
      charsLtb l2 l1 = true
  | [], [], _, h2 => absurd rfl h2
  | [], _ :: _, h1, _ => by simp [charsLtb] at h1
  | _ :: _, [], _, _ => by simp [charsLtb]
  | a :: as, b :: bs, h1, h2 => by
    simp only [charsLtb] at h1 ⊢
    split at h1
    · simp at h1
    · split at h1
      · rw [if_pos (by omega)]
      · rw [if_neg (by omega), if_neg (by omega)]
        have hab : a = b := by
          apply Char.eq_of_val_eq
          apply UInt32.toNat.inj
          omega
        refine charsLtb_flip h1 (fun h => h2 ?_)
        rw [hab, h]

theorem strLt_trans {a b c : String} (h1 : strLt a b) (h2 : strLt b c) :
    strLt a c :=
  charsLtb_trans h1 h2

theorem strLt_antisymm {a b : String} (h1 : ¬ strLt a b) (h2 : ¬ strLt b a) :
    a = b := by
  unfold strLt at h1 h2
  by_contra hne
  have hd : a.data ≠ b.data := fun h => hne (congrArg String.mk h)
  exact h2 (charsLtb_flip (Bool.not_eq_true _ ▸ h1 : _) hd)

theorem keyLt_trans {a b c : String × String} (h1 : keyLt a b)
    (h2 : keyLt b c) : keyLt a c := by
  rcases h1 with h1 | ⟨e1, h1⟩
  · rcases h2 with h2 | ⟨e2, h2⟩
    · exact Or.inl (strLt_trans h1 h2)
    · exact Or.inl (e2 ▸ h1)
  · rcases h2 with h2 | ⟨e2, h2⟩
    · exact Or.inl (e1 ▸ h2)
    · exact Or.inr ⟨e1.trans e2, strLt_trans h1 h2⟩

theorem keyLt_flip {a b : String × String} (h1 : ¬ keyLt a b) (h2 : a ≠ b) :
    keyLt b a := by
  by_cases hs : strLt b.1 a.1
  · exact Or.inl hs
  · have hns : ¬ strLt a.1 b.1 := fun h => h1 (Or.inl h)
    have he : a.1 = b.1 := strLt_antisymm hns hs
    refine Or.inr ⟨he.symm, ?_⟩
    by_cases hs2 : strLt b.2 a.2
    · exact hs2
    · have hns2 : ¬ strLt a.2 b.2 := fun h => h1 (Or.inr ⟨he, h⟩)
      have he2 : a.2 = b.2 := strLt_antisymm hns2 hs2
      exact absurd (Prod.ext he he2) h2

/-! ### Lemmas about the bucket map of `Tracker::build` -/

theorem mem_insertSeg {key : Int} {wp : Waypoint} :
    ∀ {m : List (Int × List Waypoint)} {c : Int × List Waypoint},
      c ∈ insertSeg key wp m → c.1 = key ∨ ∃ d ∈ m, c.1 = d.1 := by
  intro m
  induction m with
  | nil =>
    intro c hc
    simp only [insertSeg, List.mem_singleton] at hc
    subst hc; exact Or.inl rfl
  | cons kv rest ih =>
    intro c hc
    obtain ⟨k, ws⟩ := kv
    unfold insertSeg at hc
    by_cases h1 : key < k
    · rw [if_pos h1] at hc
      rcases List.mem_cons.mp hc with rfl | hc
      · exact Or.inl rfl
      · exact Or.inr ⟨c, hc, rfl⟩
    · rw [if_neg h1] at hc
      by_cases h2 : key = k
      · rw [if_pos h2] at hc
        rcases List.mem_cons.mp hc with rfl | hc
        · exact Or.inr ⟨(k, ws), List.mem_cons_self _ _, rfl⟩
        · exact Or.inr ⟨c, List.mem_cons_of_mem _ hc, rfl⟩
      · rw [if_neg h2] at hc
        rcases List.mem_cons.mp hc with rfl | hc
        · exact Or.inr ⟨(k, ws), List.mem_cons_self _ _, rfl⟩
        · rcases ih hc with h | ⟨d, hd, h⟩
          · exact Or.inl h
          · exact Or.inr ⟨d, List.mem_cons_of_mem _ hd, h⟩

theorem pairwise_insertSeg {key : Int} {wp : Waypoint} :
    ∀ {m : List (Int × List Waypoint)},
      m.Pairwise (fun a b => a.1 < b.1) →
      (insertSeg key wp m).Pairwise (fun a b => a.1 < b.1) := by
  intro m
  induction m with
  | nil => intro _; simp [insertSeg]
  | cons kv rest ih =>
    intro hm
    obtain ⟨k, ws⟩ := kv
    obtain ⟨hk, hrest⟩ := List.pairwise_cons.mp hm
    unfold insertSeg
    by_cases h1 : key < k
    · rw [if_pos h1]
      refine List.Pairwise.cons ?_ hm
      intro b hb
      rcases List.mem_cons.mp hb with rfl | hb
      · exact h1
      · exact lt_trans h1 (hk b hb)
    · rw [if_neg h1]
      by_cases h2 : key = k
      · rw [if_pos h2]
        exact List.Pairwise.cons hk hrest
      · rw [if_neg h2]
        refine List.Pairwise.cons ?_ (ih hrest)
        intro b hb
        rcases mem_insertSeg hb with hb1 | ⟨d, hd, hb1⟩
        · rw [hb1]; omega
        · rw [hb1]; exact hk d hd

theorem lookupSeg_eq_nil {k : Int} :
    ∀ {m : List (Int × List Waypoint)}, (∀ c ∈ m, k ≠ c.1) → lookupSeg k m = [] := by
  intro m
  induction m with
  | nil => intro _; rfl
  | cons kv rest ih =>
    intro h
    obtain ⟨k2, ws⟩ := kv
    have hne : k ≠ k2 := h (k2, ws) (List.mem_cons_self _ _)
    simp only [lookupSeg, if_neg hne]
    exact ih fun c hc => h c (List.mem_cons_of_mem _ hc)

theorem lookupSeg_of_mem :
    ∀ {m : List (Int × List Waypoint)},
      m.Pairwise (fun a b => a.1 < b.1) →
      ∀ {kv}, kv ∈ m → lookupSeg kv.1 m = kv.2 := by
  intro m
  induction m with
  | nil => intro _ kv h; cases h
  | cons c rest ih =>
    intro hm kv hkv
    obtain ⟨hc, hrest⟩ := List.pairwise_cons.mp hm
    obtain ⟨k2, ws⟩ := c
    rcases List.mem_cons.mp hkv with rfl | hkv
    · simp [lookupSeg]
    · have : kv.1 ≠ k2 := by have := hc kv hkv; omega
      simp only [lookupSeg, if_neg this]
      exact ih hrest hkv

theorem lookupSeg_insertSeg {key k : Int} {wp : Waypoint} :
    ∀ {m : List (Int × List Waypoint)},
      m.Pairwise (fun a b => a.1 < b.1) →
      lookupSeg k (insertSeg key wp m) =
        if k = key then lookupSeg k m ++ [wp] else lookupSeg k m := by
  intro m
  induction m with
  | nil =>
    intro _
    by_cases h : k = key <;> simp [insertSeg, lookupSeg, h]
  | cons kv rest ih =>
    intro hm
    obtain ⟨k2, ws⟩ := kv
    obtain ⟨hk2, hrest⟩ := List.pairwise_cons.mp hm
    unfold insertSeg
    by_cases h1 : key < k2
    · rw [if_pos h1]
      by_cases h : k = key
      · subst h
        have hnil : lookupSeg k ((k2, ws) :: rest) = [] := by
          apply lookupSeg_eq_nil
          intro c hc
          rcases List.mem_cons.mp hc with rfl | hc
          · simp only; omega
          · have := hk2 c hc; simp only at this ⊢; omega
        rw [if_pos rfl, hnil]
        simp [lookupSeg]
      · rw [if_neg h]
        simp only [lookupSeg, if_neg h]
    · rw [if_neg h1]
      by_cases h2 : key = k2
      · rw [if_pos h2]
        subst h2
        by_cases h : k = key
        · subst h; simp [lookupSeg]
        · rw [if_neg h]
          simp only [lookupSeg, if_neg h]
      · rw [if_neg h2]
        by_cases h3 : k = k2
        · subst h3
          have hne : ¬ k = key := fun h => h2 h.symm
          rw [if_neg hne]
          simp [lookupSeg]
        · simp only [lookupSeg, if_neg h3]
          exact ih hrest

/-- The one-step function of the segment-building loop. -/
def segStep (D : Nat) (m : List (Int × List Waypoint)) (p : RawPosition) :
    List (Int × List Waypoint) :=
  insertSeg (bucketKey D p.time) (toWaypoint p) m

theorem buildSegs_eq_foldl (D : Nat) (ps : List RawPosition) :
    buildSegs D ps = ps.foldl (segStep D) [] := rfl

theorem pairwise_foldl_segStep (D : Nat) :
    ∀ (ps : List RawPosition) (m : List (Int × List Waypoint)),
      m.Pairwise (fun a b => a.1 < b.1) →
      (ps.foldl (segStep D) m).Pairwise (fun a b => a.1 < b.1) := by
  intro ps
  induction ps with
  | nil => intro m hm; exact hm
  | cons p ps ih =>
    intro m hm
    exact ih _ (pairwise_insertSeg hm)

theorem pairwise_buildSegs (D : Nat) (ps : List RawPosition) :
    (buildSegs D ps).Pairwise (fun a b => a.1 < b.1) :=
  pairwise_foldl_segStep D ps [] List.Pairwise.nil

theorem lookupSeg_foldl_segStep (D : Nat) (k : Int) :
    ∀ (ps : List RawPosition) (m : List (Int × List Waypoint)),
      m.Pairwise (fun a b => a.1 < b.1) →
      lookupSeg k (ps.foldl (segStep D) m) =
        lookupSeg k m ++ (ps.filter (fun p => bucketKey D p.time == k)).map toWaypoint := by
  intro ps
  induction ps with
  | nil => intro m hm; simp
  | cons p ps ih =>
    intro m hm
    simp only [List.foldl_cons]
    rw [ih (segStep D m p) (pairwise_insertSeg hm)]
    have hstep : lookupSeg k (segStep D m p) =
        if k = bucketKey D p.time then lookupSeg k m ++ [toWaypoint p]
        else lookupSeg k m :=
      lookupSeg_insertSeg hm
    rw [hstep]
    by_cases h : bucketKey D p.time = k
    · rw [if_pos h.symm]
      simp [List.filter_cons, h, List.append_assoc]
    · rw [if_neg fun hh => h hh.symm]
      have hb : (bucketKey D p.time == k) = false := beq_eq_false_iff_ne.mpr h
      simp [List.filter_cons, hb]

theorem lookupSeg_buildSegs (D : Nat) (k : Int) (ps : List RawPosition) :
    lookupSeg k (buildSegs D ps) =
      (ps.filter (fun p => bucketKey D p.time == k)).map toWaypoint := by
  rw [buildSegs_eq_foldl, lookupSeg_foldl_segStep D k ps [] List.Pairwise.nil]
  rfl

theorem buildSegs_content (D : Nat) (ps : List RawPosition) :
    ∀ kv ∈ buildSegs D ps,
      kv.2 = (ps.filter (fun p => bucketKey D p.time == kv.1)).map toWaypoint := by
  intro kv hkv
  rw [← lookupSeg_buildSegs, lookupSeg_of_mem (pairwise_buildSegs D ps) hkv]

theorem lookupSeg_ne_nil_mem {k : Int} :
    ∀ {m : List (Int × List Waypoint)},
      lookupSeg k m ≠ [] → ∃ kv ∈ m, kv.1 = k ∧ kv.2 = lookupSeg k m := by
  intro m
  induction m with
  | nil => intro h; exact absurd rfl h
  | cons c rest ih =>
    intro h
    obtain ⟨k2, ws⟩ := c
    by_cases hk : k = k2
    · subst hk
      simp only [lookupSeg, if_pos rfl] at h ⊢
      exact ⟨(k, ws), List.mem_cons_self _ _, rfl, rfl⟩
    · simp only [lookupSeg, if_neg hk] at h ⊢
      obtain ⟨kv, hkv, h1, h2⟩ := ih h
      exact ⟨kv, List.mem_cons_of_mem _ hkv, h1, h2⟩

theorem foldl_segStep_const_key (D : Nat) (k0 : Int) :
    ∀ (ps : List RawPosition) (ws : List Waypoint),
      (∀ p ∈ ps, bucketKey D p.time = k0) →
      ps.foldl (segStep D) [(k0, ws)] = [(k0, ws ++ ps.map toWaypoint)] := by
  intro ps
  induction ps with
  | nil => intro ws _; simp
  | cons p ps ih =>
    intro ws h
    have hk := h p (List.mem_cons_self p ps)
    simp only [List.foldl_cons]
    have hstep : segStep D [(k0, ws)] p = [(k0, ws ++ [toWaypoint p])] := by
      simp [segStep, hk, insertSeg]
    rw [hstep, ih _ fun q hq => h q (List.mem_cons_of_mem p hq)]
    simp

theorem buildSegs_const_key (D : Nat) (k0 : Int) (ps : List RawPosition)
    (hne : ps ≠ []) (h : ∀ p ∈ ps, bucketKey D p.time = k0) :
    buildSegs D ps = [(k0, ps.map toWaypoint)] := by
  obtain ⟨p, rest, rfl⟩ := List.exists_cons_of_ne_nil hne
  rw [buildSegs_eq_foldl]
  simp only [List.foldl_cons]
  have hk := h p (List.mem_cons_self p rest)
  have hstep : segStep D [] p = [(k0, [toWaypoint p])] := by
    simp [segStep, hk, insertSeg]
  rw [hstep, foldl_segStep_const_key D k0 rest _
    fun q hq => h q (List.mem_cons_of_mem p hq)]
  simp

/-! ### Lemmas about the stable sort -/

theorem sortPositions_perm (ps : List RawPosition) :
    List.Perm (sortPositions ps) ps :=
  List.perm_insertionSort posTimeLe ps

theorem sortPositions_sorted (ps : List RawPosition) :
    (sortPositions ps).Sorted posTimeLe :=
  List.sorted_insertionSort posTimeLe ps

theorem sortPositions_length (ps : List RawPosition) :
    (sortPositions ps).length = ps.length :=
  (sortPositions_perm ps).length_eq

theorem mem_sortPositions {p : RawPosition} {ps : List RawPosition} :
    p ∈ sortPositions ps ↔ p ∈ ps :=
  (sortPositions_perm ps).mem_iff

/-- Stability of the sort: filtering the sorted list by any predicate that
only keeps mutually time-tied positions gives back the original-order
filtering of the input. -/
theorem sortPositions_filter_stable (ps : List RawPosition)
    (q : RawPosition → Bool)
    (hq : ∀ a b, q a = true → q b = true → posTimeLe a b) :
    (sortPositions ps).filter q = ps.filter q := by
  have hpair : (ps.filter q).Pairwise posTimeLe :=
    List.pairwise_of_forall_mem_list fun a ha b hb =>
      hq a b (List.of_mem_filter ha) (List.of_mem_filter hb)
  have hsub : List.Sublist (ps.filter q) (sortPositions ps) :=
    List.sublist_insertionSort hpair (List.filter_sublist ps)
  have h1 : (ps.filter q).filter q = ps.filter q :=
    List.filter_eq_self.mpr fun a ha => List.of_mem_filter ha
  have hsub2 : List.Sublist (ps.filter q) ((sortPositions ps).filter q) :=
    h1 ▸ hsub.filter q
  have hperm : List.Perm ((sortPositions ps).filter q) (ps.filter q) :=
    (sortPositions_perm ps).filter q
  exact (hsub2.eq_of_length hperm.length_eq.symm).symm

/-- With all positions in one bucket, `Tracker::build` emits a single segment
holding every point in sorted order. -/
theorem tracker_build_single_segment (tr : Tracker) (ps : List RawPosition)
    (k0 : Int) (hvw : tr.segment_confs.vw_tolerance = none) (hne : ps ≠ [])
    (hk : ∀ p ∈ ps, bucketKey tr.segment_confs.max_duration p.time = k0) :
    Tracker.build tr ps = Except.ok
      { name := some tr.name
        description := some ("Tracked by `" ++ tr.device ++ "`")
        source := tr.source
        segments := [TrackSegment.mk ((sortPositions ps).map toWaypoint)] } := by
  have hne2 : sortPositions ps ≠ [] := by
    intro h
    apply hne
    have hlen := sortPositions_length ps
    rw [h] at hlen
    exact List.length_eq_zero.mp hlen.symm
  simp only [Tracker.build]
  rw [buildSegs_const_key _ k0 _ hne2
    (fun p hp => hk p (mem_sortPositions.mp hp))]
  simp [hvw]

/-! ### Claims C2, C3, C4 -/

/-- **C2** — counterexample to the claim as stated.  Two positions at unix
times 299 and 301: the time span is 2 and `max_duration = 300 > 2`, with
simplification disabled, yet the built track has two segments, not one,
because the epoch-aligned buckets `⌊299/300⌋*300 = 0` and
`⌊301/300⌋*300 = 300` differ. -/
theorem C2_counterexample :
    (Tracker.build (trkOf 300 none) [posA 299, posA 301]).map
      (fun t => t.segments.length) = Except.ok 2 ∧
    (301 : Int) - 299 < 300 := by
  constructor
  · decide
  · decide

/-- **C2** (amended): for every non-empty list of `N` positions, building with
simplification disabled and a `max_duration` under which all positions share
one bucket (`max_duration` larger than the time span alone does not suffice:
an epoch-aligned bucket boundary may fall between the positions) yields
exactly one segment containing all `N` points in time order. -/
theorem C2_amended (tr : Tracker) (ps : List RawPosition) (k0 : Int)
    (hvw : tr.segment_confs.vw_tolerance = none) (hne : ps ≠ [])
    (hk : ∀ p ∈ ps, bucketKey tr.segment_confs.max_duration p.time = k0) :
    ∃ t, Tracker.build tr ps = Except.ok t ∧
      t.segments = [TrackSegment.mk ((sortPositions ps).map toWaypoint)] ∧
      ((sortPositions ps).map toWaypoint).length = ps.length ∧
      (sortPositions ps).Sorted posTimeLe ∧
      List.Perm (sortPositions ps) ps := by
  refine ⟨_, tracker_build_single_segment tr ps k0 hvw hne hk, rfl, ?_,
    sortPositions_sorted ps, sortPositions_perm ps⟩
  rw [List.length_map, sortPositions_length]

theorem C2_witness :
    ∃ t, Tracker.build (trkOf 300 none) [posA 10, posA 20] = Except.ok t ∧
      t.segments = [TrackSegment.mk
        ((sortPositions [posA 10, posA 20]).map toWaypoint)] ∧
      ((sortPositions [posA 10, posA 20]).map toWaypoint).length =
        ([posA 10, posA 20] : List RawPosition).length ∧
      (sortPositions [posA 10, posA 20]).Sorted posTimeLe ∧
      List.Perm (sortPositions [posA 10, posA 20]) [posA 10, posA 20] :=
  C2_amended (trkOf 300 none) [posA 10, posA 20] 0 rfl (by decide) (by decide)

/-- **C3** (confirmed): with `max_duration = D ≥ 1`, the segments built by
`Tracker::build` are owned by pairwise-distinct bucket keys in ascending
order; the segment owned by bucket `k` holds exactly the waypoints of the
(sorted) positions whose key is `k`; every position lands in the segment
whose key is `⌊unix_seconds / D⌋ * D`; and the track's segment list
corresponds one-to-one to that bucket list. -/
theorem C3_bucketing (tr : Tracker) (ps : List RawPosition) (t : Track)
    (hD : 1 ≤ tr.segment_confs.max_duration)
    (hb : Tracker.build tr ps = Except.ok t) :
    ((buildSegs tr.segment_confs.max_duration (sortPositions ps)).map
        Prod.fst).Pairwise (· < ·) ∧
    (∀ kv ∈ buildSegs tr.segment_confs.max_duration (sortPositions ps),
      kv.2 = ((sortPositions ps).filter
        (fun p => bucketKey tr.segment_confs.max_duration p.time ==
          kv.1)).map toWaypoint) ∧
    (∀ p ∈ ps,
      ∃ kv ∈ buildSegs tr.segment_confs.max_duration (sortPositions ps),
        kv.1 = p.time.fdiv (tr.segment_confs.max_duration : Int) *
          (tr.segment_confs.max_duration : Int) ∧ toWaypoint p ∈ kv.2) ∧
    t.segments.length =
      (buildSegs tr.segment_confs.max_duration (sortPositions ps)).length := by
  refine ⟨?_, buildSegs_content _ _, ?_, ?_⟩
  · exact List.pairwise_map.mpr (pairwise_buildSegs _ _)
  · intro p hp
    have hps : p ∈ sortPositions ps := mem_sortPositions.mpr hp
    have hmemf : p ∈ (sortPositions ps).filter
        (fun q => bucketKey tr.segment_confs.max_duration q.time ==
          bucketKey tr.segment_confs.max_duration p.time) :=
      List.mem_filter.mpr ⟨hps, beq_self_eq_true _⟩
    have hlk : toWaypoint p ∈ lookupSeg
        (bucketKey tr.segment_confs.max_duration p.time)
        (buildSegs tr.segment_confs.max_duration (sortPositions ps)) := by
      rw [lookupSeg_buildSegs]
      exact List.mem_map_of_mem toWaypoint hmemf
    obtain ⟨kv, hkv, h1, h2⟩ := lookupSeg_ne_nil_mem (List.ne_nil_of_mem hlk)
    refine ⟨kv, hkv, ?_, by rw [h2]; exact hlk⟩
    rw [h1]
    unfold bucketKey
    rw [if_neg (by omega)]
  · simp only [Tracker.build, Except.ok.injEq] at hb
    rw [← hb]
    simp

theorem C3_witness :
    1 ≤ (trkOf 300 none).segment_confs.max_duration ∧
    (((buildSegs (trkOf 300 none).segment_confs.max_duration
        (sortPositions [posA 299, posA 301])).map Prod.fst).Pairwise (· < ·) ∧
      (∀ kv ∈ buildSegs (trkOf 300 none).segment_confs.max_duration
          (sortPositions [posA 299, posA 301]),
        kv.2 = ((sortPositions [posA 299, posA 301]).filter
          (fun p => bucketKey (trkOf 300 none).segment_confs.max_duration
            p.time == kv.1)).map toWaypoint) ∧
      (∀ p ∈ [posA 299, posA 301],
        ∃ kv ∈ buildSegs (trkOf 300 none).segment_confs.max_duration
            (sortPositions [posA 299, posA 301]),
          kv.1 = p.time.fdiv
              ((trkOf 300 none).segment_confs.max_duration : Int) *
            ((trkOf 300 none).segment_confs.max_duration : Int) ∧
          toWaypoint p ∈ kv.2) ∧
      (Track.mk (some "n") (some "Tracked by `d`") none
          [TrackSegment.mk [toWaypoint (posA 299)],
           TrackSegment.mk [toWaypoint (posA 301)]]).segments.length =
        (buildSegs (trkOf 300 none).segment_confs.max_duration
          (sortPositions [posA 299, posA 301])).length) :=
  ⟨by decide,
    C3_bucketing (trkOf 300 none) [posA 299, posA 301]
      (Track.mk (some "n") (some "Tracked by `d`") none
        [TrackSegment.mk [toWaypoint (posA 299)],
         TrackSegment.mk [toWaypoint (posA 301)]])
      (by decide) (by decide)⟩

/-- **C4** — counterexample to the claim as stated.  `max_duration = 0` is not
clamped to 1: positions at times 0 and 1 build to a single segment under
`max_duration = 0` (the `NaN as i64` cast collapses every bucket key to 0)
but to two segments under `max_duration = 1`, so the two configurations
produce different tracks. -/
theorem C4_counterexample :
    (Tracker.build (trkOf 0 none) [posA 0, posA 1]).map
      (fun t => t.segments.length) = Except.ok 1 ∧
    (Tracker.build (trkOf 1 none) [posA 0, posA 1]).map
      (fun t => t.segments.length) = Except.ok 2 ∧
    Tracker.build (trkOf 0 none) [posA 0, posA 1] ≠
      Tracker.build (trkOf 1 none) [posA 0, posA 1] := by
  refine ⟨by decide, by decide, by decide⟩

/-- **C4** (amended): `max_duration = 0` is used as-is, not clamped: the
float bucket computation maps every position to bucket 0 (`NaN as i64 = 0`
in Rust), so a nonempty batch yields a single segment holding all points in
time order — which in general differs from what `max_duration = 1`
produces. -/
theorem C4_amended (tr : Tracker) (ps : List RawPosition)
    (hD : tr.segment_confs.max_duration = 0)
    (hvw : tr.segment_confs.vw_tolerance = none) (hne : ps ≠ []) :
    Tracker.build tr ps = Except.ok
      { name := some tr.name
        description := some ("Tracked by `" ++ tr.device ++ "`")
        source := tr.source
        segments := [TrackSegment.mk ((sortPositions ps).map toWaypoint)] } :=
  tracker_build_single_segment tr ps 0 hvw hne
    (fun p _ => by rw [hD]; rfl)

theorem C4_witness :
    Tracker.build (trkOf 0 none) [posA 5, posA 99] = Except.ok
      { name := some "n"
        description := some ("Tracked by `" ++ "d" ++ "`")
        source := none
        segments := [TrackSegment.mk
          ((sortPositions [posA 5, posA 99]).map toWaypoint)] } :=
  C4_amended (trkOf 0 none) [posA 5, posA 99] rfl rfl (by decide)

/-! ### Lemmas for the simplification branch -/

theorem head?_eraseIdx_of_pos {α : Type} (l : List α) (i : Nat) (h : 0 < i) :
    (l.eraseIdx i).head? = l.head? := by
  cases l with
  | nil => rfl
  | cons a rest =>
    cases i with
    | zero => omega
    | succ j => rfl

theorem getLast?_eraseIdx_of_lt {α : Type} :
    ∀ (l : List α) (i : Nat), i + 1 < l.length →
      (l.eraseIdx i).getLast? = l.getLast? := by
  intro l
  induction l with
  | nil => intro i h; simp at h
  | cons a rest ih =>
    intro i h
    cases i with
    | zero =>
      simp only [List.eraseIdx_cons_zero]
      simp only [List.length_cons] at h
      obtain ⟨b, rest2, rfl⟩ := List.exists_cons_of_ne_nil
        (show rest ≠ [] by intro hh; rw [hh] at h; simp at h)
      rw [List.getLast?_cons_cons]
    | succ j =>
      simp only [List.eraseIdx_cons_succ]
      simp only [List.length_cons] at h
      have hj : j + 1 < rest.length := by omega
      have hne : rest.eraseIdx j ≠ [] := by
        have hlen := List.length_eraseIdx_add_one
          (show j < rest.length by omega)
        intro hh
        rw [hh] at hlen
        simp at hlen
        omega
      have hre := ih j hj
      obtain ⟨b, rest2, rfl⟩ := List.exists_cons_of_ne_nil
        (show rest ≠ [] by intro hh; rw [hh] at hj; simp at hj)
      obtain ⟨c, X2, hX⟩ := List.exists_cons_of_ne_nil hne
      rw [hX, List.getLast?_cons_cons, ← hX, hre, List.getLast?_cons_cons]

theorem areasAux_bounds :
    ∀ (l : List (Nat × Waypoint)) (i : Nat), ∀ x ∈ areasAux i l,
      i + 1 ≤ x.1 ∧ x.1 + 2 ≤ i + l.length
  | a :: b :: c :: rest, i, x, hx => by
    rcases List.mem_cons.mp hx with rfl | hx
    · refine ⟨le_refl _, ?_⟩
      simp only [List.length_cons]
      omega
    · have := areasAux_bounds (b :: c :: rest) (i + 1) x hx
      simp only [List.length_cons] at this ⊢
      omega
  | [], _, x, hx => absurd hx (List.not_mem_nil x)
  | [a], _, x, hx => absurd hx (List.not_mem_nil x)
  | [a, b], _, x, hx => absurd hx (List.not_mem_nil x)

theorem foldl_pickMin_mem :
    ∀ (xs : List (Nat × Rat)) (acc : Nat × Rat),
      xs.foldl (fun best y => if y.2 < best.2 then y else best) acc = acc ∨
      xs.foldl (fun best y => if y.2 < best.2 then y else best) acc ∈ xs := by
  intro xs
  induction xs with
  | nil => intro acc; exact Or.inl rfl
  | cons y ys ih =>
    intro acc
    simp only [List.foldl_cons]
    by_cases h : y.2 < acc.2
    · rw [if_pos h]
      rcases ih y with h1 | h1
      · exact Or.inr (by rw [h1]; exact List.mem_cons_self _ _)
      · exact Or.inr (List.mem_cons_of_mem _ h1)
    · rw [if_neg h]
      rcases ih acc with h1 | h1
      · exact Or.inl h1
      · exact Or.inr (List.mem_cons_of_mem _ h1)

theorem pickMin_mem {xs : List (Nat × Rat)} {y : Nat × Rat}
    (h : pickMin xs = some y) : y ∈ xs := by
  cases xs with
  | nil => simp [pickMin] at h
  | cons x rest =>
    simp only [pickMin, Option.some.injEq] at h
    rcases foldl_pickMin_mem rest x with h1 | h1
    · rw [← h, h1]; exact List.mem_cons_self _ _
    · rw [← h]; exact List.mem_cons_of_mem _ h1

theorem vwLoop_sublist (tol : Rat) :
    ∀ (fuel : Nat) (l : List (Nat × Waypoint)),
      List.Sublist (vwLoop tol fuel l) l := by
  intro fuel
  induction fuel with
  | zero => intro l; exact List.Sublist.refl l
  | succ n ih =>
    intro l
    unfold vwLoop
    cases hpm : pickMin (areasAux 0 l) with
    | none => exact List.Sublist.refl l
    | some ia =>
      obtain ⟨i, a⟩ := ia
      show List.Sublist (if a < tol then vwLoop tol n (l.eraseIdx i) else l) l
      by_cases h : a < tol
      · rw [if_pos h]
        exact (ih _).trans (List.eraseIdx_sublist l i)
      · rw [if_neg h]

theorem vwLoop_head_last (tol : Rat) :
    ∀ (fuel : Nat) (l : List (Nat × Waypoint)),
      (vwLoop tol fuel l).head? = l.head? ∧
      (vwLoop tol fuel l).getLast? = l.getLast? := by
  intro fuel
  induction fuel with
  | zero => intro l; exact ⟨rfl, rfl⟩
  | succ n ih =>
    intro l
    unfold vwLoop
    cases hpm : pickMin (areasAux 0 l) with
    | none => exact ⟨rfl, rfl⟩
    | some ia =>
      obtain ⟨i, a⟩ := ia
      show (if a < tol then vwLoop tol n (l.eraseIdx i) else l).head? = _ ∧
        (if a < tol then vwLoop tol n (l.eraseIdx i) else l).getLast? = _
      by_cases h : a < tol
      · rw [if_pos h]
        have hbounds := areasAux_bounds l 0 (i, a) (pickMin_mem hpm)
        simp only [Nat.zero_add] at hbounds
        obtain ⟨hi1, hi2⟩ := hbounds
        refine ⟨?_, ?_⟩
        · rw [(ih _).1, head?_eraseIdx_of_pos l i (by omega)]
        · rw [(ih _).2, getLast?_eraseIdx_of_lt l i (by omega)]
      · rw [if_neg h]
        exact ⟨rfl, rfl⟩

theorem enum_map_snd {α : Type} (l : List α) : l.enum.map Prod.snd = l :=
  List.enumFrom_map_snd 0 l

theorem getD_of_mem_enum {α : Type} [Inhabited α] {l : List α} {i : Nat}
    {x : α} (h : (i, x) ∈ l.enum) : l.getD i default = x := by
  have hg := List.mk_mem_enum_iff_getElem?.mp h
  simp [List.getD_eq_getElem?_getD, hg]

theorem simplifySeg_eq_map_snd (tol : Rat) (ws : List Waypoint) :
    simplifySeg tol ws = (vwLoop tol ws.length ws.enum).map Prod.snd := by
  unfold simplifySeg simplifyVwIdx
  rw [List.map_map]
  apply List.map_congr_left
  intro x hx
  have hxe : x ∈ ws.enum :=
    (vwLoop_sublist tol ws.length ws.enum).subset hx
  obtain ⟨i, w⟩ := x
  exact getD_of_mem_enum hxe

theorem simplifySeg_sublist (tol : Rat) (ws : List Waypoint) :
    List.Sublist (simplifySeg tol ws) ws := by
  rw [simplifySeg_eq_map_snd]
  have hs := (vwLoop_sublist tol ws.length ws.enum).map Prod.snd
  rwa [enum_map_snd] at hs

theorem simplifySeg_head? (tol : Rat) (ws : List Waypoint) :
    (simplifySeg tol ws).head? = ws.head? := by
  rw [simplifySeg_eq_map_snd, List.head?_map, (vwLoop_head_last tol _ _).1]
  conv_rhs => rw [← enum_map_snd ws, List.head?_map]

theorem simplifySeg_getLast? (tol : Rat) (ws : List Waypoint) :
    (simplifySeg tol ws).getLast? = ws.getLast? := by
  rw [simplifySeg_eq_map_snd, List.getLast?_map, (vwLoop_head_last tol _ _).2]
  conv_rhs => rw [← enum_map_snd ws, List.getLast?_map]

/-- **C7** (confirmed): with a simplification tolerance configured, each
output segment's waypoints are a subsequence (in original relative order,
every retained waypoint kept with all its attributes) of the corresponding
unsimplified segment's waypoints, the retained count is at most the original
count, and the first and last waypoints are always retained. -/
theorem C7_simplify_preserves (tr : Tracker) (ps : List RawPosition)
    (tol : Rat) (t : Track)
    (hvw : tr.segment_confs.vw_tolerance = some tol)
    (hb : Tracker.build tr ps = Except.ok t) :
    List.Forall₂ (fun (seg : TrackSegment) (kv : Int × List Waypoint) =>
        List.Sublist seg.points kv.2 ∧ seg.points.length ≤ kv.2.length ∧
        seg.points.head? = kv.2.head? ∧ seg.points.getLast? = kv.2.getLast?)
      t.segments
      (buildSegs tr.segment_confs.max_duration (sortPositions ps)) := by
  simp only [Tracker.build, Except.ok.injEq] at hb
  subst hb
  simp only [hvw]
  rw [List.forall₂_map_left_iff]
  apply List.forall₂_same.mpr
  intro kv _
  exact ⟨simplifySeg_sublist tol kv.2,
    (simplifySeg_sublist tol kv.2).length_le,
    simplifySeg_head? tol kv.2, simplifySeg_getLast? tol kv.2⟩

theorem C7_witness :
    List.Forall₂ (fun (seg : TrackSegment) (kv : Int × List Waypoint) =>
        List.Sublist seg.points kv.2 ∧ seg.points.length ≤ kv.2.length ∧
        seg.points.head? = kv.2.head? ∧ seg.points.getLast? = kv.2.getLast?)
      (Track.mk (some "n") (some "Tracked by `d`") none
        [TrackSegment.mk [toWaypoint (posA 0), toWaypoint (posA 10)]]).segments
      (buildSegs (trkOf 300 (some 1)).segment_confs.max_duration
        (sortPositions [posA 0, posA 10])) :=
  C7_simplify_preserves (trkOf 300 (some 1)) [posA 0, posA 10] 1
    (Track.mk (some "n") (some "Tracked by `d`") none
      [TrackSegment.mk [toWaypoint (posA 0), toWaypoint (posA 10)]])
    rfl (by decide)

/-! ### Lemmas about the grouping map -/

theorem charsLtb_irrefl : ∀ l : List Char, charsLtb l l = false
  | [] => rfl
  | a :: as => by
    simp only [charsLtb]
    rw [if_neg (by omega), if_neg (by omega)]
    exact charsLtb_irrefl as

theorem strLt_irrefl (a : String) : ¬ strLt a a := by
  unfold strLt
  rw [charsLtb_irrefl]
  simp

theorem keyLt_irrefl (a : String × String) : ¬ keyLt a a := by
  intro h
  rcases h with h | ⟨_, h⟩ <;> exact strLt_irrefl _ h

theorem keyLt_ne {a b : String × String} (h : keyLt a b) : a ≠ b := by
  intro he
  rw [he] at h
  exact keyLt_irrefl b h

theorem mem_insertGroup {key : String × String} {p : DevicePosition} :
    ∀ {m : List ((String × String) × List DevicePosition)}
      {c : (String × String) × List DevicePosition},
      c ∈ insertGroup key p m → c.1 = key ∨ ∃ d ∈ m, c.1 = d.1 := by
  intro m
  induction m with
  | nil =>
    intro c hc
    simp only [insertGroup, List.mem_singleton] at hc
    subst hc; exact Or.inl rfl
  | cons kv rest ih =>
    intro c hc
    obtain ⟨k, ms⟩ := kv
    unfold insertGroup at hc
    by_cases h1 : keyLt key k
    · rw [if_pos h1] at hc
      rcases List.mem_cons.mp hc with rfl | hc
      · exact Or.inl rfl
      · exact Or.inr ⟨c, hc, rfl⟩
    · rw [if_neg h1] at hc
      by_cases h2 : key = k
      · rw [if_pos h2] at hc
        rcases List.mem_cons.mp hc with rfl | hc
        · exact Or.inr ⟨(k, ms), List.mem_cons_self _ _, rfl⟩
        · exact Or.inr ⟨c, List.mem_cons_of_mem _ hc, rfl⟩
      · rw [if_neg h2] at hc
        rcases List.mem_cons.mp hc with rfl | hc
        · exact Or.inr ⟨(k, ms), List.mem_cons_self _ _, rfl⟩
        · rcases ih hc with h | ⟨d, hd, h⟩
          · exact Or.inl h
          · exact Or.inr ⟨d, List.mem_cons_of_mem _ hd, h⟩

theorem pairwise_insertGroup {key : String × String} {p : DevicePosition} :
    ∀ {m : List ((String × String) × List DevicePosition)},
      m.Pairwise (fun a b => keyLt a.1 b.1) →
      (insertGroup key p m).Pairwise (fun a b => keyLt a.1 b.1) := by
  intro m
  induction m with
  | nil => intro _; simp [insertGroup]
  | cons kv rest ih =>
    intro hm
    obtain ⟨k, ms⟩ := kv
    obtain ⟨hk, hrest⟩ := List.pairwise_cons.mp hm
    unfold insertGroup
    by_cases h1 : keyLt key k
    · rw [if_pos h1]
      refine List.Pairwise.cons ?_ hm
      intro b hb
      rcases List.mem_cons.mp hb with rfl | hb
      · exact h1
      · exact keyLt_trans h1 (hk b hb)
    · rw [if_neg h1]
      by_cases h2 : key = k
      · rw [if_pos h2]
        exact List.Pairwise.cons hk hrest
      · rw [if_neg h2]
        refine List.Pairwise.cons ?_ (ih hrest)
        intro b hb
        rcases mem_insertGroup hb with hb1 | ⟨d, hd, hb1⟩
        · rw [hb1]
          exact keyLt_flip h1 h2
        · rw [hb1]
          exact hk d hd

theorem lookupGrp_eq_nil {k : String × String} :
    ∀ {m : List ((String × String) × List DevicePosition)},
      (∀ c ∈ m, k ≠ c.1) → lookupGrp k m = [] := by
  intro m
  induction m with
  | nil => intro _; rfl
  | cons kv rest ih =>
    intro h
    obtain ⟨k2, ms⟩ := kv
    have hne : k ≠ k2 := h (k2, ms) (List.mem_cons_self _ _)
    simp only [lookupGrp, if_neg hne]
    exact ih fun c hc => h c (List.mem_cons_of_mem _ hc)

theorem lookupGrp_of_mem :
    ∀ {m : List ((String × String) × List DevicePosition)},
      m.Pairwise (fun a b => keyLt a.1 b.1) →
      ∀ {kv}, kv ∈ m → lookupGrp kv.1 m = kv.2 := by
  intro m
  induction m with
  | nil => intro _ kv h; cases h
  | cons c rest ih =>
    intro hm kv hkv
    obtain ⟨hc, hrest⟩ := List.pairwise_cons.mp hm
    obtain ⟨k2, ms⟩ := c
    rcases List.mem_cons.mp hkv with rfl | hkv
    · simp [lookupGrp]
    · have hne : kv.1 ≠ k2 := fun h => keyLt_ne (hc kv hkv) h.symm
      simp only [lookupGrp, if_neg hne]
      exact ih hrest hkv

theorem lookupGrp_insertGroup {key k : String × String} {p : DevicePosition} :
    ∀ {m : List ((String × String) × List DevicePosition)},
      m.Pairwise (fun a b => keyLt a.1 b.1) →
      lookupGrp k (insertGroup key p m) =
        if k = key then lookupGrp k m ++ [p] else lookupGrp k m := by
  intro m
  induction m with
  | nil =>
    intro _
    by_cases h : k = key <;> simp [insertGroup, lookupGrp, h]
  | cons kv rest ih =>
    intro hm
    obtain ⟨k2, ms⟩ := kv
    obtain ⟨hk2, hrest⟩ := List.pairwise_cons.mp hm
    unfold insertGroup
    by_cases h1 : keyLt key k2
    · rw [if_pos h1]
      by_cases h : k = key
      · subst h
        have hnil : lookupGrp k ((k2, ms) :: rest) = [] := by
          apply lookupGrp_eq_nil
          intro c hc
          rcases List.mem_cons.mp hc with rfl | hc
          · exact keyLt_ne h1
          · exact keyLt_ne (keyLt_trans h1 (hk2 c hc))
        rw [if_pos rfl, hnil]
        simp [lookupGrp]
      · rw [if_neg h]
        simp only [lookupGrp, if_neg h]
    · rw [if_neg h1]
      by_cases h2 : key = k2
      · rw [if_pos h2]
        subst h2
        by_cases h : k = key
        · subst h; simp [lookupGrp]
        · rw [if_neg h]
          simp only [lookupGrp, if_neg h]
      · rw [if_neg h2]
        by_cases h3 : k = k2
        · subst h3
          have hne : ¬ k = key := fun h => h2 h.symm
          rw [if_neg hne]
          simp [lookupGrp]
        · simp only [lookupGrp, if_neg h3]
          exact ih hrest

theorem insertGroup_nonempty {key : String × String} {p : DevicePosition} :
    ∀ {m : List ((String × String) × List DevicePosition)},
      (∀ g ∈ m, g.2 ≠ []) → ∀ g ∈ insertGroup key p m, g.2 ≠ [] := by
  intro m
  induction m with
  | nil =>
    intro _ g hg
    simp only [insertGroup, List.mem_singleton] at hg
    subst hg
    simp
  | cons kv rest ih =>
    intro hm g hg
    obtain ⟨k, ms⟩ := kv
    unfold insertGroup at hg
    by_cases h1 : keyLt key k
    · rw [if_pos h1] at hg
      rcases List.mem_cons.mp hg with rfl | hg
      · simp
      · exact hm g hg
    · rw [if_neg h1] at hg
      by_cases h2 : key = k
      · rw [if_pos h2] at hg
        rcases List.mem_cons.mp hg with rfl | hg
        · simp
        · exact hm g (List.mem_cons_of_mem _ hg)
      · rw [if_neg h2] at hg
        rcases List.mem_cons.mp hg with rfl | hg
        · exact hm (k, ms) (List.mem_cons_self _ _)
        · exact ih (fun c hc => hm c (List.mem_cons_of_mem _ hc)) g hg

/-- Any property preserved by `insertGroup` is an invariant of a successful
run of the grouping fold. -/
theorem foldlM_grpStep_inv (fmt : Int → Except String String)
    (P : List ((String × String) × List DevicePosition) → Prop)
    (hpres : ∀ m key pos, P m → P (insertGroup key pos m)) :
    ∀ (ps : List DevicePosition) (m gs), P m →
      ps.foldlM (grpStep fmt) m = Except.ok gs → P gs := by
  intro ps
  induction ps with
  | nil =>
    intro m gs hm h
    rw [List.foldlM_nil] at h
    have h2 : Except.ok m = Except.ok gs := h
    rw [← Except.ok.inj h2]
    exact hm
  | cons p ps ih =>
    intro m gs hm h
    rw [List.foldlM_cons] at h
    cases hstep : grpStep fmt m p with
    | error e =>
      rw [hstep] at h
      have h2 : (Except.error e : Except String _) = Except.ok gs := h
      cases h2
    | ok m2 =>
      rw [hstep] at h
      have h2 : ps.foldlM (grpStep fmt) m2 = Except.ok gs := h
      have hm2 : P m2 := by
        unfold grpStep at hstep
        cases hr : p.route_name with
        | some ro =>
          rw [hr] at hstep
          rw [← Except.ok.inj hstep]
          exact hpres m _ p hm
        | none =>
          rw [hr] at hstep
          cases hf : fmt p.pos.time with
          | ok day =>
            rw [hf] at hstep
            rw [← Except.ok.inj hstep]
            exact hpres m _ p hm
          | error e =>
            rw [hf] at hstep
            cases hstep
      exact ih m2 gs hm2 h2

theorem groupPositions_pairwise (fmt : Int → Except String String)
    (ps : List DevicePosition)
    (gs : List ((String × String) × List DevicePosition))
    (h : groupPositions fmt ps = Except.ok gs) :
    gs.Pairwise (fun a b => keyLt a.1 b.1) :=
  foldlM_grpStep_inv fmt (fun m => m.Pairwise (fun a b => keyLt a.1 b.1))
    (fun _ _ _ hm => pairwise_insertGroup hm) ps [] gs List.Pairwise.nil h

theorem groupPositions_nonempty (fmt : Int → Except String String)
    (ps : List DevicePosition)
    (gs : List ((String × String) × List DevicePosition))
    (h : groupPositions fmt ps = Except.ok gs) :
    ∀ g ∈ gs, g.2 ≠ [] :=
  foldlM_grpStep_inv fmt (fun m => ∀ g ∈ m, g.2 ≠ [])
    (fun _ _ _ hm => insertGroup_nonempty hm) ps [] gs (by intro g hg; cases hg)
    h

/-- The group owned by key `k` after a successful grouping fold collects, in
original batch order, exactly the positions whose derived key is `k`. -/
theorem lookupGrp_foldlM (fmt : Int → Except String String)
    (k : String × String) :
    ∀ (ps : List DevicePosition) (m gs),
      m.Pairwise (fun a b => keyLt a.1 b.1) →
      ps.foldlM (grpStep fmt) m = Except.ok gs →
      lookupGrp k gs = lookupGrp k m ++ ps.filter (keyMatches fmt k) := by
  intro ps
  induction ps with
  | nil =>
    intro m gs hm h
    rw [List.foldlM_nil] at h
    have h2 : Except.ok m = Except.ok gs := h
    rw [← Except.ok.inj h2]
    simp
  | cons p ps ih =>
    intro m gs hm h
    rw [List.foldlM_cons] at h
    cases hstep : grpStep fmt m p with
    | error e =>
      rw [hstep] at h
      have h2 : (Except.error e : Except String _) = Except.ok gs := h
      cases h2
    | ok m2 =>
      rw [hstep] at h
      have h2 : ps.foldlM (grpStep fmt) m2 = Except.ok gs := h
      unfold grpStep at hstep
      cases hr : p.route_name with
      | some ro =>
        rw [hr] at hstep
        have hm2 : m2 = insertGroup (p.device_id, ro) p m :=
          (Except.ok.inj hstep).symm
        subst hm2
        rw [ih _ gs (pairwise_insertGroup hm) h2, lookupGrp_insertGroup hm]
        have hkm : keyMatches fmt k p = true ↔ k = (p.device_id, ro) := by
          unfold keyMatches
          rw [hr]
          rcases k with ⟨k1, k2⟩
          simp only [Bool.and_eq_true, beq_iff_eq, Prod.mk.injEq]
          constructor
          · rintro ⟨ha, hb⟩; exact ⟨ha.symm, hb.symm⟩
          · rintro ⟨ha, hb⟩; exact ⟨ha.symm, hb.symm⟩
        by_cases hk : k = (p.device_id, ro)
        · rw [if_pos hk, List.filter_cons, hkm.mpr hk]
          simp [List.append_assoc]
        · have hfalse : keyMatches fmt k p = false := by
            rw [Bool.eq_false_iff]
            intro hh
            exact hk (hkm.mp hh)
          rw [if_neg hk, List.filter_cons, hfalse]
          simp
      | none =>
        rw [hr] at hstep
        cases hf : fmt p.pos.time with
        | ok day =>
          rw [hf] at hstep
          have hm2 : m2 = insertGroup (p.device_id, day) p m :=
            (Except.ok.inj hstep).symm
          subst hm2
          rw [ih _ gs (pairwise_insertGroup hm) h2, lookupGrp_insertGroup hm]
          have hkm : keyMatches fmt k p = true ↔ k = (p.device_id, day) := by
            unfold keyMatches
            rw [hr, hf]
            rcases k with ⟨k1, k2⟩
            simp only [Bool.and_eq_true, beq_iff_eq, Prod.mk.injEq]
            constructor
            · rintro ⟨ha, hb⟩; exact ⟨ha.symm, hb.symm⟩
            · rintro ⟨ha, hb⟩; exact ⟨ha.symm, hb.symm⟩
          by_cases hk : k = (p.device_id, day)
          · rw [if_pos hk, List.filter_cons, hkm.mpr hk]
            simp [List.append_assoc]
          · have hfalse : keyMatches fmt k p = false := by
              rw [Bool.eq_false_iff]
              intro hh
              exact hk (hkm.mp hh)
            rw [if_neg hk, List.filter_cons, hfalse]
            simp
        | error e =>
          rw [hf] at hstep
          cases hstep

theorem groupPositions_lookup (fmt : Int → Except String String)
    (ps : List DevicePosition)
    (gs : List ((String × String) × List DevicePosition))
    (h : groupPositions fmt ps = Except.ok gs) (k : String × String) :
    lookupGrp k gs = ps.filter (keyMatches fmt k) :=
  lookupGrp_foldlM fmt k ps [] gs List.Pairwise.nil h

/-- Every member of a produced group derives that group's key. -/
theorem groupPositions_member_key (fmt : Int → Except String String)
    (ps : List DevicePosition)
    (gs : List ((String × String) × List DevicePosition))
    (h : groupPositions fmt ps = Except.ok gs) :
    ∀ g ∈ gs, ∀ p ∈ g.2, keyMatches fmt g.1 p = true := by
  intro g hg p hp
  have hpw := groupPositions_pairwise fmt ps gs h
  have hlk : lookupGrp g.1 gs = g.2 := lookupGrp_of_mem hpw hg
  have hfl := groupPositions_lookup fmt ps gs h g.1
  rw [hlk] at hfl
  rw [hfl] at hp
  exact List.of_mem_filter hp

/-- A formatting failure among the reachable positions makes the grouping
fold fail. -/
theorem foldlM_grpStep_error (fmt : Int → Except String String) :
    ∀ (ps : List DevicePosition)
      (m : List ((String × String) × List DevicePosition)),
      (∃ p ∈ ps, p.route_name = none ∧
        ∃ e, fmt p.pos.time = Except.error e) →
      ∃ e, ps.foldlM (grpStep fmt) m = Except.error e := by
  intro ps
  induction ps with
  | nil =>
    intro m h
    obtain ⟨p, hp, _⟩ := h
    cases hp
  | cons p ps ih =>
    intro m h
    rw [List.foldlM_cons]
    cases hstep : grpStep fmt m p with
    | error e => exact ⟨e, rfl⟩
    | ok m2 =>
      obtain ⟨q, hq, hrq, e, hfq⟩ := h
      rcases List.mem_cons.mp hq with rfl | hq2
      · unfold grpStep at hstep
        rw [hrq, hfq] at hstep
        cases hstep
      · obtain ⟨e2, he2⟩ := ih m2 ⟨q, hq2, hrq, e, hfq⟩
        exact ⟨e2, he2⟩

/-- When every date-named position formats successfully, the grouping fold
succeeds. -/
theorem foldlM_grpStep_ok (fmt : Int → Except String String) :
    ∀ (ps : List DevicePosition)
      (m : List ((String × String) × List DevicePosition)),
      (∀ p ∈ ps, p.route_name = none →
        ∃ d, fmt p.pos.time = Except.ok d) →
      ∃ gs, ps.foldlM (grpStep fmt) m = Except.ok gs := by
  intro ps
  induction ps with
  | nil => intro m _; exact ⟨m, rfl⟩
  | cons p ps ih =>
    intro m h
    rw [List.foldlM_cons]
    cases hr : p.route_name with
    | some ro =>
      have hstep : grpStep fmt m p =
          Except.ok (insertGroup (p.device_id, ro) p m) := by
        unfold grpStep
        rw [hr]
      rw [hstep]
      exact ih _ fun q hq => h q (List.mem_cons_of_mem _ hq)
    | none =>
      obtain ⟨d, hd⟩ := h p (List.mem_cons_self _ _) hr
      have hstep : grpStep fmt m p =
          Except.ok (insertGroup (p.device_id, d) p m) := by
        unfold grpStep
        rw [hr, hd]
      rw [hstep]
      exact ih _ fun q hq => h q (List.mem_cons_of_mem _ hq)

theorem trackOfGroup_eq (conf : TrackSegmentOptions)
    (kv : (String × String) × List DevicePosition) :
    trackOfGroup conf kv = Except.ok (trackValue conf kv) := rfl

theorem mapM_trackOfGroup (conf : TrackSegmentOptions) :
    ∀ gs : List ((String × String) × List DevicePosition),
      gs.mapM (trackOfGroup conf) = Except.ok (gs.map (trackValue conf)) := by
  intro gs
  induction gs with
  | nil => rfl
  | cons g gs ih =>
    rw [List.mapM_cons, trackOfGroup_eq, ih]
    rfl

theorem sourceToTracks_error (e : String) (fmt : Int → Except String String)
    (conf : TrackSegmentOptions) :
    SourceToTracks.build (Except.error e) fmt conf = Except.error e := rfl

theorem sourceToTracks_groups_error (ps : List DevicePosition) (e : String)
    (fmt : Int → Except String String) (conf : TrackSegmentOptions)
    (hg : groupPositions fmt ps = Except.error e) :
    SourceToTracks.build (Except.ok ps) fmt conf = Except.error e := by
  show (groupPositions fmt ps >>= fun groups =>
    groups.mapM (trackOfGroup conf)) = Except.error e
  rw [hg]
  rfl

theorem sourceToTracks_ok (ps : List DevicePosition)
    (fmt : Int → Except String String) (conf : TrackSegmentOptions)
    (gs : List ((String × String) × List DevicePosition))
    (hg : groupPositions fmt ps = Except.ok gs) :
    SourceToTracks.build (Except.ok ps) fmt conf =
      Except.ok (gs.map (trackValue conf)) := by
  show (groupPositions fmt ps >>= fun groups =>
    groups.mapM (trackOfGroup conf)) = _
  rw [hg]
  show gs.mapM (trackOfGroup conf) = _
  rw [mapM_trackOfGroup]

/-! ### Claims C1, C5, C8, C9, C10 -/

/-- **C1** — counterexample to the claim as stated.  A group whose first
member carries no tracker tag but whose second member is tagged `"app"`
yields a track with `source = none`; the claim demands the tag of the
earliest *tagged* member, i.e. `some "app"`. -/
theorem C1_counterexample :
    (SourceToTracks.build (Except.ok
        [⟨"d", posA 0, some "r", none⟩, ⟨"d", posA 10, some "r", some "app"⟩])
      fmtDate TrackSegmentOptions.default).map
        (fun ts => ts.map Track.source) = Except.ok [none] ∧
    ([⟨"d", posA 0, some "r", none⟩,
      (⟨"d", posA 10, some "r", some "app"⟩ : DevicePosition)].find?
        (fun p => p.tracker.isSome)) =
      some ⟨"d", posA 10, some "r", some "app"⟩ ∧
    (some "app" : Option String) ≠ none := by
  refine ⟨by decide, by decide, by decide⟩

/-- **C1** (amended): each produced track's source/application tag is the
tracker tag of the group's *first member only* (`dev_pos[0]`): it is `Some`
exactly when that first member carries a tag, and tags carried by later
members are ignored. -/
theorem C1_source_from_first (ps : List DevicePosition)
    (gs : List ((String × String) × List DevicePosition)) (ts : List Track)
    (fmt : Int → Except String String) (conf : TrackSegmentOptions)
    (hg : groupPositions fmt ps = Except.ok gs)
    (hb : SourceToTracks.build (Except.ok ps) fmt conf = Except.ok ts) :
    List.Forall₂ (fun (t : Track) g =>
      t.source = g.2.head?.bind DevicePosition.tracker) ts gs := by
  rw [sourceToTracks_ok ps fmt conf gs hg] at hb
  rw [← Except.ok.inj hb]
  rw [List.forall₂_map_left_iff]
  exact List.forall₂_same.mpr fun g _ => rfl

theorem C1_witness :
    List.Forall₂ (fun (t : Track) g =>
      t.source = g.2.head?.bind DevicePosition.tracker)
      [Track.mk (some "r") (some "Tracked by `d`") none
        [TrackSegment.mk [toWaypoint (posA 0), toWaypoint (posA 10)]]]
      [(("d", "r"), [⟨"d", posA 0, some "r", none⟩,
        ⟨"d", posA 10, some "r", some "app"⟩])] :=
  C1_source_from_first
    [⟨"d", posA 0, some "r", none⟩, ⟨"d", posA 10, some "r", some "app"⟩]
    [(("d", "r"), [⟨"d", posA 0, some "r", none⟩,
      ⟨"d", posA 10, some "r", some "app"⟩])]
    [Track.mk (some "r") (some "Tracked by `d`") none
      [TrackSegment.mk [toWaypoint (posA 0), toWaypoint (posA 10)]]]
    fmtDate TrackSegmentOptions.default (by decide) (by decide)

/-- **C5** — counterexample to the claim as stated.  A position whose route
label is the whitespace string `"  "` (empty after trimming) gets route key
`"  "`, not the calendar date `"1970-01-01"` the claim requires; the
spec-worded `routeKeySpec` disagrees with the code on this input. -/
theorem C5_counterexample :
    groupPositions fmtDate [⟨"d", posA 0, some "  ", none⟩] =
      Except.ok [(("d", "  "), [⟨"d", posA 0, some "  ", none⟩])] ∧
    ("  " : String).data.all Char.isWhitespace = true ∧
    routeKeySpec ⟨"d", posA 0, some "  ", none⟩ = "1970-01-01" ∧
    ("  " : String) ≠ "1970-01-01" := by
  refine ⟨by decide, by decide, by decide, by decide⟩

/-- **C5** (amended): the `route_key` component of a position's group key is
the explicit route label whenever it is present — with no trimming or
emptiness check — and otherwise the calendar date of its timestamp formatted
`YYYY-MM-DD`. -/
theorem C5_route_key (ps : List DevicePosition)
    (gs : List ((String × String) × List DevicePosition))
    (h : groupPositions fmtDate ps = Except.ok gs) :
    ∀ g ∈ gs, ∀ p ∈ g.2,
      g.1.1 = p.device_id ∧
      g.1.2 = (match p.route_name with
        | some r => r
        | none => dateStr p.pos.time) := by
  intro g hg p hp
  have hk := groupPositions_member_key fmtDate ps gs h g hg p hp
  unfold keyMatches at hk
  cases hr : p.route_name with
  | some r =>
    rw [hr] at hk
    simp only [Bool.and_eq_true, beq_iff_eq] at hk
    exact ⟨hk.1.symm, hk.2.symm⟩
  | none =>
    rw [hr] at hk
    simp only [fmtDate, Bool.and_eq_true, beq_iff_eq] at hk
    exact ⟨hk.1.symm, hk.2.symm⟩

theorem C5_witness :
    ("e" : String) =
      (⟨"e", posA 0, none, none⟩ : DevicePosition).device_id ∧
    ("1970-01-01" : String) = dateStr (posA 0).time :=
  C5_route_key
    [⟨"d", posA 0, some "r", none⟩, ⟨"e", posA 0, none, none⟩]
    [(("d", "r"), [⟨"d", posA 0, some "r", none⟩]),
      (("e", "1970-01-01"), [⟨"e", posA 0, none, none⟩])]
    (by decide)
    (("e", "1970-01-01"), [⟨"e", posA 0, none, none⟩]) (by decide)
    ⟨"e", posA 0, none, none⟩ (by decide)

/-- **C8** (confirmed): groups — and with them the produced tracks — are
emitted in strictly ascending lexicographic `(device_id, route_key)` order,
each track named after its group key and describing its device, and an empty
batch yields zero tracks with no error. -/
theorem C8_deterministic_order (ps : List DevicePosition)
    (gs : List ((String × String) × List DevicePosition)) (ts : List Track)
    (fmt : Int → Except String String) (conf : TrackSegmentOptions)
    (hg : groupPositions fmt ps = Except.ok gs)
    (hb : SourceToTracks.build (Except.ok ps) fmt conf = Except.ok ts) :
    (gs.map Prod.fst).Pairwise keyLt ∧
    List.Forall₂ (fun (t : Track) g => t.name = some g.1.2 ∧
      t.description = some ("Tracked by `" ++ g.1.1 ++ "`")) ts gs ∧
    SourceToTracks.build (Except.ok []) fmt conf = Except.ok [] := by
  refine ⟨?_, ?_, rfl⟩
  · exact List.pairwise_map.mpr (groupPositions_pairwise fmt ps gs hg)
  · rw [sourceToTracks_ok ps fmt conf gs hg] at hb
    rw [← Except.ok.inj hb]
    rw [List.forall₂_map_left_iff]
    exact List.forall₂_same.mpr fun g _ => ⟨rfl, rfl⟩

theorem C8_witness :
    (([(("a", "r"), [(⟨"a", posA 0, some "r", none⟩ : DevicePosition)]),
      (("b", "r"), [⟨"b", posA 0, some "r", none⟩])].map
        Prod.fst).Pairwise keyLt ∧
    List.Forall₂ (fun (t : Track) g => t.name = some g.1.2 ∧
      t.description = some ("Tracked by `" ++ g.1.1 ++ "`"))
      [Track.mk (some "r") (some "Tracked by `a`") none
        [TrackSegment.mk [toWaypoint (posA 0)]],
       Track.mk (some "r") (some "Tracked by `b`") none
        [TrackSegment.mk [toWaypoint (posA 0)]]]
      [(("a", "r"), [(⟨"a", posA 0, some "r", none⟩ : DevicePosition)]),
       (("b", "r"), [⟨"b", posA 0, some "r", none⟩])] ∧
    SourceToTracks.build (Except.ok []) fmtDate TrackSegmentOptions.default =
      Except.ok []) :=
  C8_deterministic_order
    [⟨"b", posA 0, some "r", none⟩, ⟨"a", posA 0, some "r", none⟩]
    [(("a", "r"), [⟨"a", posA 0, some "r", none⟩]),
     (("b", "r"), [⟨"b", posA 0, some "r", none⟩])]
    [Track.mk (some "r") (some "Tracked by `a`") none
      [TrackSegment.mk [toWaypoint (posA 0)]],
     Track.mk (some "r") (some "Tracked by `b`") none
      [TrackSegment.mk [toWaypoint (posA 0)]]]
    fmtDate TrackSegmentOptions.default (by decide) (by decide)

/-- **C9** (confirmed): `SourceToTracks::build` is atomic — a fetch error is
returned verbatim with no tracks; a grouping/formatting failure aborts the
whole build with that error; a formatting failure on any reached date-named
position produces an error; and when fetch succeeds and all needed name
derivations succeed, the whole build succeeds. -/
theorem C9_atomicity (fmt : Int → Except String String)
    (conf : TrackSegmentOptions) :
    (∀ e, SourceToTracks.build (Except.error e) fmt conf = Except.error e) ∧
    (∀ ps e, groupPositions fmt ps = Except.error e →
      SourceToTracks.build (Except.ok ps) fmt conf = Except.error e) ∧
    (∀ ps : List DevicePosition,
      (∃ p ∈ ps, p.route_name = none ∧
        ∃ e, fmt p.pos.time = Except.error e) →
      ∃ e, SourceToTracks.build (Except.ok ps) fmt conf = Except.error e) ∧
    (∀ ps : List DevicePosition,
      (∀ p ∈ ps, p.route_name = none →
        ∃ d, fmt p.pos.time = Except.ok d) →
      ∃ ts, SourceToTracks.build (Except.ok ps) fmt conf = Except.ok ts) := by
  refine ⟨fun e => rfl, ?_, ?_, ?_⟩
  · intro ps e hg
    exact sourceToTracks_groups_error ps e fmt conf hg
  · intro ps h
    obtain ⟨e, he⟩ := foldlM_grpStep_error fmt ps [] h
    exact ⟨e, sourceToTracks_groups_error ps e fmt conf he⟩
  · intro ps h
    obtain ⟨gs, hgs⟩ := foldlM_grpStep_ok fmt ps [] h
    exact ⟨gs.map (trackValue conf), sourceToTracks_ok ps fmt conf gs hgs⟩

theorem C9_witness :
    SourceToTracks.build (Except.error "boom") fmtDate
      TrackSegmentOptions.default = Except.error "boom" ∧
    (∃ e, SourceToTracks.build
      (Except.ok [⟨"d", posA 0, none, none⟩]) fmtBad
      TrackSegmentOptions.default = Except.error e) ∧
    (∃ ts, SourceToTracks.build
      (Except.ok [⟨"d", posA 0, none, none⟩]) fmtDate
      TrackSegmentOptions.default = Except.ok ts) :=
  ⟨(C9_atomicity fmtDate TrackSegmentOptions.default).1 "boom",
    (C9_atomicity fmtBad TrackSegmentOptions.default).2.2.1
      [⟨"d", posA 0, none, none⟩]
      ⟨⟨"d", posA 0, none, none⟩, List.mem_cons_self _ _, rfl, "bad", rfl⟩,
    (C9_atomicity fmtDate TrackSegmentOptions.default).2.2.2
      [⟨"d", posA 0, none, none⟩]
      (fun p _ _ => ⟨dateStr p.pos.time, rfl⟩)⟩

/-- **C10** (confirmed): every group produced by the grouping loop is
non-empty — an entry is created only together with its first member — so the
`dev_pos[0]` read that takes the tracker tag is always in bounds. -/
theorem C10_groups_nonempty (fmt : Int → Except String String)
    (ps : List DevicePosition)
    (gs : List ((String × String) × List DevicePosition))
    (h : groupPositions fmt ps = Except.ok gs) :
    ∀ g ∈ gs, g.2 ≠ [] :=
  groupPositions_nonempty fmt ps gs h

theorem C10_witness :
    ([(⟨"d", posA 0, some "r", none⟩ : DevicePosition)] :
      List DevicePosition) ≠ [] :=
  C10_groups_nonempty fmtDate
    [⟨"d", posA 0, some "r", none⟩, ⟨"e", posA 3, none, none⟩]
    [(("d", "r"), [⟨"d", posA 0, some "r", none⟩]),
     (("e", "1970-01-01"), [⟨"e", posA 3, none, none⟩])]
    (by decide)
    (("d", "r"), [⟨"d", posA 0, some "r", none⟩]) (by decide)

/-! ### Claim C6 -/

/-- The timestamps of any sub-selection of a built bucket's waypoints are
non-decreasing. -/
theorem pairwise_time_of_points {D : Nat} {ps : List RawPosition}
    {kv : Int × List Waypoint} (hkv : kv ∈ buildSegs D (sortPositions ps))
    {pts : List Waypoint} (hsub : List.Sublist pts kv.2) :
    (pts.filterMap Waypoint.time).Sorted (· ≤ ·) := by
  have hcontent := buildSegs_content D (sortPositions ps) kv hkv
  have hsorted : ((sortPositions ps).filter
      (fun p => bucketKey D p.time == kv.1)).Pairwise posTimeLe :=
    (sortPositions_sorted ps).filter _
  have h2 : (kv.2.filterMap Waypoint.time).Sorted (· ≤ ·) := by
    rw [hcontent, List.filterMap_map]
    have hcomp : (Waypoint.time ∘ toWaypoint) =
        (some ∘ fun p : RawPosition => p.time) := rfl
    rw [hcomp, List.filterMap_eq_map]
    exact List.pairwise_map.mpr hsorted
  exact List.Pairwise.sublist (hsub.filterMap Waypoint.time) h2

/-- **C6** (confirmed): within every segment of a built track, waypoint
timestamps are non-decreasing; and — with simplification disabled — the
waypoints of a segment carrying any timestamp τ are exactly the positions
with timestamp τ, in original batch order: the sort over positions is
stable. -/
theorem C6_stable_time_order (tr : Tracker) (ps : List RawPosition)
    (t : Track) (hb : Tracker.build tr ps = Except.ok t) :
    (∀ seg ∈ t.segments,
      (seg.points.filterMap Waypoint.time).Sorted (· ≤ ·)) ∧
    (tr.segment_confs.vw_tolerance = none →
      List.Forall₂ (fun (seg : TrackSegment) (kv : Int × List Waypoint) =>
        ∀ τ : Int, seg.points.filter (fun w => w.time == some τ) =
          if bucketKey tr.segment_confs.max_duration τ = kv.1
          then (ps.filter (fun p => p.time == τ)).map toWaypoint
          else [])
        t.segments
        (buildSegs tr.segment_confs.max_duration (sortPositions ps))) := by
  simp only [Tracker.build, Except.ok.injEq] at hb
  subst hb
  constructor
  · intro seg hseg
    rcases List.mem_map.mp hseg with ⟨kv, hkv, rfl⟩
    cases hvw : tr.segment_confs.vw_tolerance with
    | none =>
      exact pairwise_time_of_points hkv (List.Sublist.refl _)
    | some tol =>
      exact pairwise_time_of_points hkv (simplifySeg_sublist tol kv.2)
  · intro hvw
    simp only [hvw]
    rw [List.forall₂_map_left_iff]
    apply List.forall₂_same.mpr
    intro kv hkv τ
    show kv.2.filter (fun w => w.time == some τ) = _
    have hcontent := buildSegs_content _ _ kv hkv
    rw [hcontent, List.filter_map]
    have hcomp : ((fun w : Waypoint => w.time == some τ) ∘ toWaypoint) =
        fun p : RawPosition => p.time == τ := by
      funext p
      show (some p.time == some τ) = (p.time == τ)
      rfl
    rw [hcomp, List.filter_filter]
    by_cases hbk : bucketKey tr.segment_confs.max_duration τ = kv.1
    · rw [if_pos hbk]
      have hcongr : ∀ x ∈ sortPositions ps,
          ((x.time == τ) &&
            (bucketKey tr.segment_confs.max_duration x.time == kv.1)) =
          (x.time == τ) := by
        intro x _
        by_cases ht : x.time = τ
        · rw [ht, hbk]
          simp
        · rw [beq_eq_false_iff_ne.mpr ht]
          simp
      rw [List.filter_congr hcongr]
      have hstable := sortPositions_filter_stable ps
        (fun p => p.time == τ)
        (fun a b ha hb2 => by
          unfold posTimeLe
          rw [beq_iff_eq.mp ha, beq_iff_eq.mp hb2])
      rw [hstable]
    · rw [if_neg hbk, List.map_eq_nil_iff, List.filter_eq_nil_iff]
      intro p _
      by_cases ht : p.time = τ
      · rw [ht, beq_iff_eq.mpr rfl]
        simp only [Bool.true_and, Bool.and_eq_true, beq_iff_eq]
        exact fun hh => hbk hh
      · rw [beq_eq_false_iff_ne.mpr ht]
        simp

theorem C6_witness :
    (∀ seg ∈ (Track.mk (some "n") (some "Tracked by `d`") none
        [TrackSegment.mk [toWaypoint (posA 299)],
         TrackSegment.mk [toWaypoint (posA 301)]]).segments,
      (seg.points.filterMap Waypoint.time).Sorted (· ≤ ·)) ∧
    ((trkOf 300 none).segment_confs.vw_tolerance = none →
      List.Forall₂ (fun (seg : TrackSegment) (kv : Int × List Waypoint) =>
        ∀ τ : Int, seg.points.filter (fun w => w.time == some τ) =
          if bucketKey (trkOf 300 none).segment_confs.max_duration τ = kv.1
          then (([posA 301, posA 299] : List RawPosition).filter
            (fun p => p.time == τ)).map toWaypoint
          else [])
        (Track.mk (some "n") (some "Tracked by `d`") none
          [TrackSegment.mk [toWaypoint (posA 299)],
           TrackSegment.mk [toWaypoint (posA 301)]]).segments
        (buildSegs (trkOf 300 none).segment_confs.max_duration
          (sortPositions [posA 301, posA 299]))) :=
  C6_stable_time_order (trkOf 300 none) [posA 301, posA 299]
    (Track.mk (some "n") (some "Tracked by `d`") none
      [TrackSegment.mk [toWaypoint (posA 299)],
       TrackSegment.mk [toWaypoint (posA 301)]])
    (by decide)

end L2G

